import Mathlib

/-!
# Verification of the citation formatter in `src/main.py`

Shallow embedding of the two pure functions of the repository,
`parse_external_link` and `format_citations`, together with proofs of the
specified properties.  Python strings are modelled as `List Char` (type
`PyStr`); Python's `str.split(sep)` for a one-character separator is
modelled by `pySplit`; `int(...)` is modelled by `pyInt`; the mutable
`references` dict (insertion ordered, keyed by the citation counter) and the
`reference_counter` variable are modelled by an explicit state `CState`
threaded through the per-segment loop.
-/

/-- Python strings, modelled as lists of characters. -/
abbrev PyStr := List Char

/-- ASCII whitespace characters stripped by Python's `str.strip()`. -/
def pyIsSpace (c : Char) : Bool :=
  c = ' ' || c = '\t' || c = '\n' || c = '\r' || c.toNat = 11 || c.toNat = 12

/-- Python's `str.strip()`: remove leading and trailing whitespace. -/
def pyStrip (cs : PyStr) : PyStr :=
  ((cs.dropWhile pyIsSpace).reverse.dropWhile pyIsSpace).reverse

/-- Digit tail of a Python integer literal: `digit (["_"] digit)*` after the
first digit has been consumed; accumulates the value in base 10. -/
def pyDigitsAux : List Char → Nat → Option Nat
  | [], acc => some acc
  | '_' :: c :: cs, acc =>
      if c.isDigit then pyDigitsAux cs (acc * 10 + (c.toNat - 48)) else none
  | ['_'], _ => none
  | c :: cs, acc =>
      if c.isDigit then pyDigitsAux cs (acc * 10 + (c.toNat - 48)) else none

/-- Nonempty digit string (Python decimal integer grammar), value in base 10. -/
def pyDigitsStart : List Char → Option Nat
  | [] => none
  | c :: cs => if c.isDigit then pyDigitsAux cs (c.toNat - 48) else none

/-- Python's `int(s)` on an already materialised character list: optional
surrounding whitespace, optional sign, digits (with `_` separators).
Returns `none` where Python raises `ValueError`. -/
def pyInt (s : PyStr) : Option Int :=
  match pyStrip s with
  | '+' :: rest => (pyDigitsStart rest).map Int.ofNat
  | '-' :: rest => (pyDigitsStart rest).map fun n => -(Int.ofNat n)
  | rest => (pyDigitsStart rest).map Int.ofNat

/-- Python's `s.split(sep)` for a single-character separator: the result is
always nonempty, and splitting the empty string gives `[[]]`. -/
def pySplit (sep : Char) : PyStr → List PyStr
  | [] => [[]]
  | c :: rest =>
      if c = sep then [] :: pySplit sep rest
      else (c :: (pySplit sep rest).headD []) :: (pySplit sep rest).tail

/-- One element of the backend's reference list (`summary_with_metadata.references`);
only the `uri` field is read by the formatter. -/
structure SourceRef where
  uri : String
deriving DecidableEq, Repr

/-- `parse_external_link` from `src/main.py`: empty strings are returned
unchanged; a `gs://` prefix (the regex `^(gs)://`) is replaced by
`https://storage.cloud.google.com/`; anything else is returned unchanged. -/
def parse_external_link (url : PyStr) : PyStr :=
  if url = [] then url
  else if url.take 5 = "gs://".data then
    "https://storage.cloud.google.com/".data ++ url.drop 5
  else url

/-- `[int(ref.strip()) for ref in reference_str.split(',')]`: `none` when any
token fails to parse (the `ValueError` case). -/
def parseRefNumbers (referenceStr : PyStr) : Option (List Int) :=
  (pySplit ',' referenceStr).mapM fun ref => pyInt (pyStrip ref)

/-- The mutable state of one `format_citations` call: the insertion-ordered
`references` dict as a list of (citation number, url) pairs, and
`reference_counter`. -/
structure CState where
  refs : List (Nat × PyStr)
  counter : Nat
deriving DecidableEq, Repr

/-- `parse_external_link(urls[ref_num - 1].uri)`: the normalized URL of a
1-based reference index. -/
def normUrl (urls : List SourceRef) (refNum : Int) : PyStr :=
  parse_external_link ((urls.getD (refNum.toNat - 1) ⟨""⟩).uri.data)

/-- The body of `for ref_num in ref_numbers:` — checks
`ref_num <= len(urls) and ref_num > 0`, normalizes the indexed uri, then
either records a fresh citation number or reuses the first existing number
mapped to the same url.  Returns the new state and the extended
`citation_numbers` list. -/
def processRef (urls : List SourceRef) (st : CState) (nums : List PyStr)
    (refNum : Int) : CState × List PyStr :=
  if refNum ≤ (urls.length : Int) ∧ refNum > 0 then
    let url := normUrl urls refNum
    match st.refs.find? fun p => p.2 = url with
    | none =>
        (⟨st.refs ++ [(st.counter, url)], st.counter + 1⟩,
         nums ++ [Nat.toDigits 10 st.counter])
    | some p => (st, nums ++ [Nat.toDigits 10 p.1])
  else (st, nums)

/-- The body of `for part in parts[1:]:` — returns the new state together
with the chunk of text appended to `formatted_text` for this segment. -/
def processPart (urls : List SourceRef) (st : CState) (part : PyStr) :
    CState × PyStr :=
  if ']' ∈ part then
    let referenceStr := (pySplit ']' part).headD []
    match parseRefNumbers referenceStr with
    | some refNumbers =>
        let r := refNumbers.foldl (fun p n => processRef urls p.1 p.2 n) (st, [])
        if r.2 ≠ [] then
          (r.1, '[' :: (List.intercalate ", ".data r.2) ++
                ']' :: (pySplit ']' part).getD 1 [])
        else
          (r.1, '[' :: referenceStr ++ ']' :: (pySplit ']' part).getD 1 [])
    | none => (st, '[' :: part)
  else (st, '[' :: part)

/-- The whole segment loop: threads the state left-to-right and concatenates
the emitted chunks. -/
def processParts (urls : List SourceRef) : CState → List PyStr → CState × PyStr
  | st, [] => (st, [])
  | st, p :: ps =>
      let r := processPart urls st p
      let rest := processParts urls r.1 ps
      (rest.1, r.2 ++ rest.2)

/-- Uppercase hexadecimal digit, as produced by `urllib.parse.quote`. -/
def hexDigit (n : Nat) : Char :=
  if n < 10 then Char.ofNat (48 + n) else Char.ofNat (55 + n)

/-- UTF-8 encoding of one character, as a list of byte values. -/
def utf8Bytes (c : Char) : List Nat :=
  let n := c.toNat
  if n < 0x80 then [n]
  else if n < 0x800 then [0xC0 + n / 0x40, 0x80 + n % 0x40]
  else if n < 0x10000 then
    [0xE0 + n / 0x1000, 0x80 + (n / 0x40) % 0x40, 0x80 + n % 0x40]
  else
    [0xF0 + n / 0x40000, 0x80 + (n / 0x1000) % 0x40,
     0x80 + (n / 0x40) % 0x40, 0x80 + n % 0x40]

/-- `urllib.parse.quote`'s always-safe characters: ASCII letters, digits,
and `_.-~`. -/
def isAlwaysSafe (c : Char) : Bool :=
  c.isAlpha || c.isDigit || c = '_' || c = '.' || c = '-' || c = '~'

/-- `urllib.parse.quote` on one character: kept verbatim when always safe or
in the `safe` set, otherwise each UTF-8 byte becomes `%XX`. -/
def quoteChar (safe : List Char) (c : Char) : PyStr :=
  if isAlwaysSafe c || c ∈ safe then [c]
  else ((utf8Bytes c).map fun b => ['%', hexDigit (b / 16), hexDigit (b % 16)]).flatten

/-- `urllib.parse.quote(url, safe=...)` (all safe characters used by the
source are ASCII, so per-character processing agrees with per-byte). -/
def pyQuote (s : PyStr) (safe : List Char) : PyStr :=
  (s.map (quoteChar safe)).flatten

/-- The trailing references list: `"\n\n**References:**\n"` followed by one
line `f"[{ref_id}] {encoded_url}\n"` per entry, in insertion order, with
`urllib.parse.quote(url, safe=':/')`. -/
def referencesBlock (refs : List (Nat × PyStr)) : PyStr :=
  "\n\n**References:**\n".data ++
  (refs.map fun p =>
    '[' :: Nat.toDigits 10 p.1 ++ ']' :: ' ' :: pyQuote p.2 [':', '/'] ++ ['\n']).flatten

/-- `format_citations` from `src/main.py`, on character lists: split on `[`,
copy the leading segment, run the segment loop, and append the references
block when the table is nonempty. -/
def formatCitationsL (text : PyStr) (urls : List SourceRef) : PyStr :=
  let parts := pySplit '[' text
  let r := processParts urls ⟨[], 1⟩ parts.tail
  let body := parts.headD [] ++ r.2
  if r.1.refs ≠ [] then body ++ referencesBlock r.1.refs else body

/-- `format_citations` at the `String` interface. -/
def format_citations (text : String) (urls : List SourceRef) : String :=
  ⟨formatCitationsL text.data urls⟩

/-- The chunk a segment contributes when it yields no citation number: the
three no-citation branches of `processPart` (no `]`, parse failure, or the
all-indices-invalid branch).  A pure function of the segment alone. -/
def passthroughPart (part : PyStr) : PyStr :=
  if ']' ∈ part then
    match parseRefNumbers ((pySplit ']' part).headD []) with
    | some _ =>
        '[' :: (pySplit ']' part).headD [] ++ ']' :: (pySplit ']' part).getD 1 []
    | none => '[' :: part
  else '[' :: part

/-- Well-formedness of the citation table: citation numbers are exactly
`1, 2, …, len` in insertion order, normalized URLs are pairwise distinct,
and the counter is one past the last assigned number. -/
def TableOK (st : CState) : Prop :=
  st.refs.map Prod.fst = List.range' 1 st.refs.length ∧
  (st.refs.map Prod.snd).Nodup ∧
  st.counter = st.refs.length + 1

/-- Fallible variant of `processRef` in which the Python indexing
`urls[ref_num - 1]` is `Option`-valued (`none` = `IndexError`). -/
def processRefE (urls : List SourceRef) (st : CState) (nums : List PyStr)
    (refNum : Int) : Option (CState × List PyStr) :=
  if refNum ≤ (urls.length : Int) ∧ refNum > 0 then
    (urls.get? (refNum.toNat - 1)).bind fun sr =>
      match st.refs.find? fun p => p.2 = parse_external_link sr.uri.data with
      | none =>
          some (⟨st.refs ++ [(st.counter, parse_external_link sr.uri.data)],
                 st.counter + 1⟩,
                nums ++ [Nat.toDigits 10 st.counter])
      | some p => some (st, nums ++ [Nat.toDigits 10 p.1])
  else some (st, nums)

/-- Fallible variant of `processPart`: the Python list indexings
`part.split(']')[0]` and `part.split(']')[1]` are `Option`-valued, and a
`ValueError` from `int(...)` is caught as in the source (it is not a
failure). -/
def processPartE (urls : List SourceRef) (st : CState) (part : PyStr) :
    Option (CState × PyStr) :=
  if ']' ∈ part then
    ((pySplit ']' part).get? 0).bind fun referenceStr =>
      match parseRefNumbers referenceStr with
      | some refNumbers =>
        (refNumbers.foldlM (fun p n => processRefE urls p.1 p.2 n)
            (st, ([] : List PyStr))).bind fun r =>
          ((pySplit ']' part).get? 1).bind fun rest =>
            if r.2 ≠ [] then
              some (r.1, '[' :: List.intercalate ", ".data r.2 ++ ']' :: rest)
            else some (r.1, '[' :: referenceStr ++ ']' :: rest)
      | none => some (st, '[' :: part)
  else some (st, '[' :: part)

/-- Fallible variant of the segment loop. -/
def processPartsE (urls : List SourceRef) :
    CState → List PyStr → Option (CState × PyStr)
  | st, [] => some (st, [])
  | st, p :: ps =>
    (processPartE urls st p).bind fun r =>
      (processPartsE urls r.1 ps).bind fun rest => some (rest.1, r.2 ++ rest.2)

/-- Fallible variant of the whole formatter: the indexing `parts[0]` is also
`Option`-valued.  `formatCitationsE = some ∘ formatCitationsL` is the
totality theorem: no indexing ever fails and no exception escapes. -/
def formatCitationsE (text : PyStr) (urls : List SourceRef) : Option PyStr :=
  ((pySplit '[' text).get? 0).bind fun head =>
    (processPartsE urls ⟨[], 1⟩ (pySplit '[' text).tail).bind fun r =>
      if r.1.refs ≠ [] then some (head ++ r.2 ++ referencesBlock r.1.refs)
      else some (head ++ r.2)

/-! ## Lemmas about `pySplit` -/

theorem pySplit_ne_nil (sep : Char) (l : PyStr) : pySplit sep l ≠ [] := by
  cases l with
  | nil => simp [pySplit]
  | cons c rest => unfold pySplit; split <;> simp

theorem pySplit_headD_eq_takeWhile (sep : Char) (l : PyStr) :
    (pySplit sep l).headD [] = l.takeWhile (· ≠ sep) := by
  induction l with
  | nil => rfl
  | cons c rest ih =>
      unfold pySplit
      by_cases h : c = sep
      · rw [if_pos h, List.headD_cons, List.takeWhile_cons_of_neg (by simp [h])]
      · rw [if_neg h, List.headD_cons, ih,
          List.takeWhile_cons_of_pos (by simp [h])]

theorem pySplit_not_mem (sep : Char) (l : PyStr) (h : sep ∉ l) :
    pySplit sep l = [l] := by
  induction l with
  | nil => rfl
  | cons c rest ih =>
      simp only [List.mem_cons, not_or] at h
      unfold pySplit
      rw [ih h.2, if_neg fun hc => h.1 hc.symm]
      rfl

theorem pySplit_append_sep (sep : Char) (a b : PyStr) (ha : sep ∉ a) :
    pySplit sep (a ++ sep :: b) = a :: pySplit sep b := by
  induction a with
  | nil => simp [pySplit]
  | cons c rest ih =>
      simp only [List.mem_cons, not_or] at ha
      rw [List.cons_append]
      conv_lhs => unfold pySplit
      rw [ih ha.2, if_neg fun hc => ha.1 hc.symm, List.headD_cons, List.tail_cons]

theorem pySplit_length_of_mem (sep : Char) (l : PyStr) (h : sep ∈ l) :
    2 ≤ (pySplit sep l).length := by
  induction l with
  | nil => cases h
  | cons c rest ih =>
      unfold pySplit
      by_cases hc : c = sep
      · have := List.length_pos.2 (pySplit_ne_nil sep rest)
        simp [hc]; omega
      · have hr : sep ∈ rest := by
          rcases List.mem_cons.1 h with h1 | h1
          · exact absurd h1.symm hc
          · exact h1
        have := ih hr
        have htl : (pySplit sep rest).tail.length = (pySplit sep rest).length - 1 :=
          List.length_tail _
        simp [hc]; omega

theorem getD_one_cons (x : PyStr) (ps : List PyStr) :
    (x :: ps).getD 1 [] = ps.headD [] := by
  cases ps <;> rfl

/-! ## Monotonicity: the citation table only ever grows -/

theorem processRef_refs_extend (urls : List SourceRef) (st : CState)
    (nums : List PyStr) (n : Int) :
    ∃ l, (processRef urls st nums n).1.refs = st.refs ++ l := by
  simp only [processRef]
  split
  · split
    · exact ⟨_, rfl⟩
    · exact ⟨[], by simp⟩
  · exact ⟨[], by simp⟩

theorem foldRefs_refs_extend (urls : List SourceRef) (ns : List Int)
    (acc : CState × List PyStr) :
    ∃ l, ((ns.foldl (fun p n => processRef urls p.1 p.2 n) acc).1).refs =
      acc.1.refs ++ l := by
  induction ns generalizing acc with
  | nil => exact ⟨[], by simp⟩
  | cons n ns ih =>
      rw [List.foldl_cons]
      obtain ⟨l1, h1⟩ := processRef_refs_extend urls acc.1 acc.2 n
      obtain ⟨l2, h2⟩ := ih (processRef urls acc.1 acc.2 n)
      exact ⟨l1 ++ l2, by rw [h2, h1, List.append_assoc]⟩

theorem processPart_refs_extend (urls : List SourceRef) (st : CState)
    (part : PyStr) :
    ∃ l, (processPart urls st part).1.refs = st.refs ++ l := by
  simp only [processPart]
  split
  · split
    · split
      · exact foldRefs_refs_extend urls _ (st, [])
      · exact foldRefs_refs_extend urls _ (st, [])
    · exact ⟨[], by simp⟩
  · exact ⟨[], by simp⟩

theorem processParts_refs_extend (urls : List SourceRef) (ps : List PyStr)
    (st : CState) :
    ∃ l, (processParts urls st ps).1.refs = st.refs ++ l := by
  induction ps generalizing st with
  | nil => exact ⟨[], by simp [processParts]⟩
  | cons p ps ih =>
      simp only [processParts]
      obtain ⟨l1, h1⟩ := processPart_refs_extend urls st p
      obtain ⟨l2, h2⟩ := ih (processPart urls st p).1
      exact ⟨l1 ++ l2, by rw [h2, h1, List.append_assoc]⟩

/-! ## Preservation of the table invariant -/

theorem url_not_mem_of_find?_eq_none {l : List (Nat × PyStr)} {u : PyStr}
    (h : l.find? (fun p => p.2 = u) = none) : u ∉ l.map Prod.snd := by
  intro hmem
  obtain ⟨p, hp, hpu⟩ := List.mem_map.1 hmem
  exact (List.find?_eq_none.1 h p hp) (by simp [hpu])

theorem processRef_tableOK (urls : List SourceRef) (st : CState)
    (nums : List PyStr) (n : Int) (h : TableOK st) :
    TableOK (processRef urls st nums n).1 := by
  obtain ⟨h1, h2, h3⟩ := h
  simp only [processRef]
  split
  · split
    · rename_i hfind
      refine ⟨?_, ?_, ?_⟩
      · simp only [List.map_append, List.length_append, List.map_cons,
          List.map_nil, List.length_cons, List.length_nil]
        rw [h1, h3]
        conv_lhs => rw [Nat.add_comm st.refs.length 1]
        exact (List.range'_1_concat 1 st.refs.length).symm
      · simp only [List.map_append, List.map_cons, List.map_nil]
        rw [List.nodup_append]
        exact ⟨h2, List.nodup_singleton _,
          by simpa using url_not_mem_of_find?_eq_none hfind⟩
      · simp [h3]
    · exact ⟨h1, h2, h3⟩
  · exact ⟨h1, h2, h3⟩

theorem foldRefs_tableOK (urls : List SourceRef) (ns : List Int)
    (acc : CState × List PyStr) (h : TableOK acc.1) :
    TableOK ((ns.foldl (fun p n => processRef urls p.1 p.2 n) acc).1) := by
  induction ns generalizing acc with
  | nil => exact h
  | cons n ns ih =>
      rw [List.foldl_cons]
      exact ih (processRef urls acc.1 acc.2 n)
        (processRef_tableOK urls acc.1 acc.2 n h)

theorem processPart_tableOK (urls : List SourceRef) (st : CState)
    (part : PyStr) (h : TableOK st) : TableOK (processPart urls st part).1 := by
  simp only [processPart]
  split
  · split
    · split
      · exact foldRefs_tableOK urls _ (st, []) h
      · exact foldRefs_tableOK urls _ (st, []) h
    · exact h
  · exact h

theorem processParts_tableOK (urls : List SourceRef) (ps : List PyStr)
    (st : CState) (h : TableOK st) : TableOK (processParts urls st ps).1 := by
  induction ps generalizing st with
  | nil => exact h
  | cons p ps ih =>
      simp only [processParts]
      exact ih (processPart urls st p).1 (processPart_tableOK urls st p h)

theorem initial_tableOK : TableOK ⟨[], 1⟩ := ⟨rfl, List.nodup_nil, rfl⟩

/-! ## Assigning and reusing citation numbers -/

theorem find?_snd_eq_of_nodup (l : List (Nat × PyStr)) (k : Nat) (u : PyStr)
    (hnd : (l.map Prod.snd).Nodup) (hmem : (k, u) ∈ l) :
    l.find? (fun p => p.2 = u) = some (k, u) := by
  induction l with
  | nil => cases hmem
  | cons x xs ih =>
      rcases List.mem_cons.1 hmem with heq | hxs
      · rw [← heq]
        exact List.find?_cons_of_pos _ (by simp)
      · by_cases hx : x.2 = u
        · exfalso
          have hu : u ∈ xs.map Prod.snd := List.mem_map.2 ⟨(k, u), hxs, rfl⟩
          rw [List.map_cons, List.nodup_cons] at hnd
          exact hnd.1 (hx ▸ hu)
        · rw [List.find?_cons_of_neg _ (by simp [hx])]
          rw [List.map_cons, List.nodup_cons] at hnd
          exact ih hnd.2 hxs

theorem processRef_reuse (urls : List SourceRef) (st : CState)
    (nums : List PyStr) (n : Int) (k : Nat) (u : PyStr)
    (hnd : (st.refs.map Prod.snd).Nodup) (hmem : (k, u) ∈ st.refs)
    (h0 : 0 < n) (hn : n ≤ (urls.length : Int)) (hu : normUrl urls n = u) :
    processRef urls st nums n = (st, nums ++ [Nat.toDigits 10 k]) := by
  simp only [processRef]
  rw [if_pos ⟨hn, h0⟩, hu, find?_snd_eq_of_nodup st.refs k u hnd hmem]

theorem processRef_first (urls : List SourceRef) (n : Int)
    (h0 : 0 < n) (hn : n ≤ (urls.length : Int)) :
    processRef urls ⟨[], 1⟩ [] n = (⟨[(1, normUrl urls n)], 2⟩, [['1']]) := by
  simp only [processRef]
  rw [if_pos ⟨hn, h0⟩]
  rfl

/-! ## Invalid indices are skipped without touching the state -/

theorem processRef_invalid (urls : List SourceRef) (st : CState)
    (nums : List PyStr) (n : Int)
    (h : ¬(n ≤ (urls.length : Int) ∧ n > 0)) :
    processRef urls st nums n = (st, nums) := by
  simp only [processRef]
  rw [if_neg h]

theorem foldRefs_all_invalid (urls : List SourceRef) (ns : List Int)
    (acc : CState × List PyStr)
    (h : ∀ n ∈ ns, ¬(n ≤ (urls.length : Int) ∧ n > 0)) :
    ns.foldl (fun p n => processRef urls p.1 p.2 n) acc = acc := by
  induction ns generalizing acc with
  | nil => rfl
  | cons n ns ih =>
      rw [List.foldl_cons, processRef_invalid urls acc.1 acc.2 n (h n (by simp))]
      exact ih acc fun m hm => h m (by simp [hm])

/-! ## If the table ends empty, no step ever touched it -/

theorem foldRefs_refs_nil (urls : List SourceRef) (ns : List Int)
    (acc : CState × List PyStr) (h : acc.1.refs = [])
    (hend : ((ns.foldl (fun p n => processRef urls p.1 p.2 n) acc).1).refs = []) :
    ns.foldl (fun p n => processRef urls p.1 p.2 n) acc = acc := by
  induction ns generalizing acc with
  | nil => rfl
  | cons n ns ih =>
      rw [List.foldl_cons] at hend ⊢
      have hstep : processRef urls acc.1 acc.2 n = acc := by
        by_cases hv : n ≤ (urls.length : Int) ∧ n > 0
        · exfalso
          obtain ⟨l, hl⟩ :=
            foldRefs_refs_extend urls ns (processRef urls acc.1 acc.2 n)
          rw [hl] at hend
          have hnil : (processRef urls acc.1 acc.2 n).1.refs = [] :=
            (List.append_eq_nil.1 hend).1
          simp only [processRef] at hnil
          rw [if_pos hv, h] at hnil
          simp at hnil
        · rw [processRef_invalid urls acc.1 acc.2 n hv]
      rw [hstep] at hend ⊢
      exact ih acc h hend

theorem processPart_refs_nil (urls : List SourceRef) (st : CState)
    (part : PyStr) (h : st.refs = [])
    (hend : (processPart urls st part).1.refs = []) :
    processPart urls st part = (st, passthroughPart part) := by
  by_cases hb : ']' ∈ part
  · simp only [processPart, passthroughPart, if_pos hb] at hend ⊢
    cases hp : parseRefNumbers ((pySplit ']' part).headD []) with
    | none => rfl
    | some ns =>
        rw [hp] at hend
        have hf1 : ((ns.foldl (fun p n => processRef urls p.1 p.2 n)
            (st, [])).1).refs = [] := by
          by_cases hc : (ns.foldl (fun p n => processRef urls p.1 p.2 n)
              (st, [])).2 ≠ []
          · simpa [hc] using hend
          · simpa [hc] using hend
        have hfold := foldRefs_refs_nil urls ns (st, []) (by simpa using h) hf1
        simp [hfold]
  · simp only [processPart, passthroughPart, if_neg hb]

theorem processParts_passthrough (urls : List SourceRef) (ps : List PyStr)
    (st : CState) (h : st.refs = [])
    (hend : (processParts urls st ps).1.refs = []) :
    processParts urls st ps = (st, (ps.map passthroughPart).flatten) := by
  induction ps generalizing st with
  | nil => simp [processParts]
  | cons p ps ih =>
      simp only [processParts] at hend ⊢
      have hx : (processPart urls st p).1.refs = [] := by
        obtain ⟨l, hl⟩ :=
          processParts_refs_extend urls ps (processPart urls st p).1
        rw [hl] at hend
        exact (List.append_eq_nil.1 hend).1
      have hpp := processPart_refs_nil urls st p h hx
      rw [hpp] at hend ⊢
      rw [ih st h (by simpa using hend)]
      simp

/-! ## The fallible model never fails and agrees with the total one -/

theorem get?_of_lt_length (l : List SourceRef) (i : Nat) (h : i < l.length) :
    l.get? i = some (l.getD i ⟨""⟩) := by
  induction l generalizing i with
  | nil => simp at h
  | cons a as ih =>
      cases i with
      | zero => rfl
      | succ j =>
          simp only [List.length_cons] at h
          simpa using ih j (by omega)

theorem get?_zero_of_ne_nil (l : List PyStr) (h : l ≠ []) :
    l.get? 0 = some (l.headD []) := by
  cases l with
  | nil => exact absurd rfl h
  | cons a as => rfl

theorem get?_one_of_two_le (l : List PyStr) (h : 2 ≤ l.length) :
    l.get? 1 = some (l.getD 1 []) := by
  cases l with
  | nil => simp at h
  | cons a as =>
      cases as with
      | nil => simp at h
      | cons b bs => rfl

theorem processRefE_eq (urls : List SourceRef) (st : CState)
    (nums : List PyStr) (n : Int) :
    processRefE urls st nums n = some (processRef urls st nums n) := by
  simp only [processRefE, processRef]
  by_cases hv : n ≤ (urls.length : Int) ∧ n > 0
  · rw [if_pos hv, if_pos hv, get?_of_lt_length urls (n.toNat - 1) (by omega)]
    simp only [Option.some_bind, normUrl]
    cases st.refs.find? (fun p => p.2 =
        parse_external_link ((urls.getD (n.toNat - 1) ⟨""⟩).uri.data)) <;> rfl
  · rw [if_neg hv, if_neg hv]

theorem foldRefsE_eq (urls : List SourceRef) (ns : List Int)
    (acc : CState × List PyStr) :
    ns.foldlM (fun p n => processRefE urls p.1 p.2 n) acc =
      some (ns.foldl (fun p n => processRef urls p.1 p.2 n) acc) := by
  induction ns generalizing acc with
  | nil => rfl
  | cons n ns ih =>
      rw [List.foldlM_cons, List.foldl_cons, processRefE_eq]
      exact ih (processRef urls acc.1 acc.2 n)

theorem processPartE_eq (urls : List SourceRef) (st : CState) (part : PyStr) :
    processPartE urls st part = some (processPart urls st part) := by
  by_cases hb : ']' ∈ part
  · simp only [processPartE, processPart, if_pos hb,
      get?_zero_of_ne_nil (pySplit ']' part) (pySplit_ne_nil ']' part),
      get?_one_of_two_le (pySplit ']' part) (pySplit_length_of_mem ']' part hb),
      foldRefsE_eq, Option.some_bind]
    generalize parseRefNumbers ((pySplit ']' part).headD []) = o
    cases o with
    | none => rfl
    | some ns =>
        by_cases hne : (ns.foldl (fun p n => processRef urls p.1 p.2 n)
            (st, [])).2 ≠ [] <;> simp [hne]
  · simp only [processPartE, processPart, if_neg hb]

theorem processPartsE_eq (urls : List SourceRef) (ps : List PyStr)
    (st : CState) :
    processPartsE urls st ps = some (processParts urls st ps) := by
  induction ps generalizing st with
  | nil => rfl
  | cons p ps ih =>
      simp only [processPartsE, processParts, processPartE_eq, ih,
        Option.some_bind]

theorem formatCitationsE_eq (text : PyStr) (urls : List SourceRef) :
    formatCitationsE text urls = some (formatCitationsL text urls) := by
  simp only [formatCitationsE, formatCitationsL,
    get?_zero_of_ne_nil (pySplit '[' text) (pySplit_ne_nil '[' text),
    processPartsE_eq, Option.some_bind]
  split <;> rfl

/-! ## Per-segment branch behaviour -/

theorem processPart_parse_failure (urls : List SourceRef) (st : CState)
    (part : PyStr) (hb : ']' ∈ part)
    (hp : parseRefNumbers ((pySplit ']' part).headD []) = none) :
    processPart urls st part = (st, '[' :: part) := by
  simp only [processPart, if_pos hb, hp]

theorem processPart_all_invalid (urls : List SourceRef) (st : CState)
    (part : PyStr) (ns : List Int) (hb : ']' ∈ part)
    (hp : parseRefNumbers ((pySplit ']' part).headD []) = some ns)
    (hinv : ∀ n ∈ ns, n ≤ 0 ∨ (urls.length : Int) < n) :
    processPart urls st part =
      (st, '[' :: (pySplit ']' part).headD [] ++
        ']' :: (pySplit ']' part).getD 1 []) := by
  have hfold := foldRefs_all_invalid urls ns (st, [])
    (fun n hn => by have := hinv n hn; omega)
  simp only [processPart, if_pos hb, hp, hfold]
  simp

/-! ## Lemmas about URL quoting -/

theorem quoteChar_always_safe (c : Char) (h : isAlwaysSafe c = true) :
    quoteChar [':', '/'] c = [c] := by
  simp only [quoteChar, h]
  rfl

theorem quoteChar_escapes (c : Char) (h1 : isAlwaysSafe c = false)
    (h2 : c ≠ ':') (h3 : c ≠ '/') :
    ∃ bs : List Nat, bs ≠ [] ∧ quoteChar [':', '/'] c =
      (bs.map fun b => ['%', hexDigit (b / 16), hexDigit (b % 16)]).flatten := by
  refine ⟨utf8Bytes c, ?_, ?_⟩
  · simp only [utf8Bytes]
    split
    · simp
    · split
      · simp
      · split <;> simp
  · simp only [quoteChar, h1]
    rw [if_neg (by simp [h2, h3])]

/-! ## Claims -/

/-- C1 (counterexample): the remainder of a tail segment after the first `]`
is NOT always preserved: in `"See [1] a] b"` the single tail segment is
`"1] a] b"`, and the text from the second `]` on (`"] b"`) is dropped,
because the code emits `part.split(']')[1]`, the slice strictly between the
first and second `]`. -/
theorem remainder_truncation_counterexample :
    format_citations "See [1] a] b" [⟨"u"⟩] =
      "See [1] a\n\n**References:**\n[1] u\n" ∧
    format_citations "See [1] a] b" [⟨"u"⟩] ≠
      "See [1] a] b\n\n**References:**\n[1] u\n" := by
  constructor
  · decide
  · decide

/-- C1 (amended): for a tail segment `c ++ ']' :: r` whose candidate `c`
(the text before the first `]`) parses as integers, the formatter emits the
bracketed marker followed by the portion of the remainder `r` strictly
before the next `]` — the whole of `r` exactly when `r` contains no further
`]`; text from a second `]` of the segment onward is dropped. -/
theorem marker_remainder_amended (urls : List SourceRef) (st : CState)
    (c r : PyStr) (hc : ']' ∉ c) (ns : List Int)
    (hp : parseRefNumbers c = some ns) :
    (∃ M : PyStr, (processPart urls st (c ++ ']' :: r)).2 =
        '[' :: (M ++ ']' :: r.takeWhile (· ≠ ']'))) ∧
    (']' ∉ r → r.takeWhile (· ≠ ']') = r) := by
  have hsplit := pySplit_append_sep ']' c r hc
  have hmem : ']' ∈ c ++ ']' :: r := by simp
  have e1 : (pySplit ']' (c ++ ']' :: r)).headD [] = c := by
    rw [hsplit, List.headD_cons]
  have e2 : (pySplit ']' (c ++ ']' :: r)).getD 1 [] = r.takeWhile (· ≠ ']') := by
    rw [hsplit, getD_one_cons, pySplit_headD_eq_takeWhile]
  constructor
  · by_cases hne : (ns.foldl (fun p n => processRef urls p.1 p.2 n)
        (st, [])).2 ≠ []
    · refine ⟨List.intercalate ", ".data
        (ns.foldl (fun p n => processRef urls p.1 p.2 n) (st, [])).2, ?_⟩
      simp only [processPart, if_pos hmem, e1, e2, hp, if_pos hne]
      rfl
    · refine ⟨c, ?_⟩
      simp only [processPart, if_pos hmem, e1, e2, hp, if_neg hne]
      rfl
  · intro hr
    exact List.takeWhile_eq_self_iff.2
      (fun a ha => by simpa using fun h : a = ']' => hr (h ▸ ha))

/-- C1 witness: instantiation of the amended remainder theorem at the
segment `"1] a] b"` of the counterexample input. -/
theorem marker_remainder_amended_witness :
    (∃ M : PyStr, (processPart [⟨"u"⟩] ⟨[], 1⟩
        ("1".data ++ ']' :: " a] b".data)).2 =
      '[' :: (M ++ ']' :: (" a] b".data).takeWhile (· ≠ ']'))) ∧
    (']' ∉ (" a] b".data) → (" a] b".data).takeWhile (· ≠ ']') = " a] b".data) :=
  marker_remainder_amended [⟨"u"⟩] ⟨[], 1⟩ "1".data " a] b".data (by decide)
    [1] (by decide)

/-- C2: citation numbers in the final table are exactly `1, 2, …` in
first-seen (insertion) order, distinct normalized URLs get distinct
numbers; from the initial state the first valid index is assigned number 1
whatever its value; and a valid index resolving to an already-tabled
normalized URL reuses that URL's existing number, leaving the table
unchanged. -/
theorem citation_numbering_invariant :
    (∀ (text : PyStr) (urls : List SourceRef),
      ((processParts urls ⟨[], 1⟩ (pySplit '[' text).tail).1.refs.map
          Prod.fst =
        List.range' 1
          (processParts urls ⟨[], 1⟩ (pySplit '[' text).tail).1.refs.length) ∧
      ((processParts urls ⟨[], 1⟩ (pySplit '[' text).tail).1.refs.map
          Prod.snd).Nodup) ∧
    (∀ (urls : List SourceRef) (n : Int), 0 < n → n ≤ (urls.length : Int) →
      processRef urls ⟨[], 1⟩ [] n = (⟨[(1, normUrl urls n)], 2⟩, [['1']])) ∧
    (∀ (urls : List SourceRef) (st : CState) (nums : List PyStr) (n : Int)
        (k : Nat) (u : PyStr), TableOK st → (k, u) ∈ st.refs → 0 < n →
        n ≤ (urls.length : Int) → normUrl urls n = u →
        processRef urls st nums n = (st, nums ++ [Nat.toDigits 10 k])) := by
  refine ⟨fun text urls => ?_, processRef_first, ?_⟩
  · have h := processParts_tableOK urls (pySplit '[' text).tail ⟨[], 1⟩
      initial_tableOK
    exact ⟨h.1, h.2.1⟩
  · exact fun urls st nums n k u hOK hmem h0 hn hu =>
      processRef_reuse urls st nums n k u hOK.2.1 hmem h0 hn hu

/-- C2 witness: a second reference index assigned number 1 from the initial
state, and an index resolving to an already-tabled URL reusing number 1. -/
theorem citation_numbering_invariant_witness :
    processRef [⟨"x"⟩, ⟨"gs://b"⟩] ⟨[], 1⟩ [] 2 =
      (⟨[(1, normUrl [⟨"x"⟩, ⟨"gs://b"⟩] 2)], 2⟩, [['1']]) ∧
    processRef [⟨"x"⟩, ⟨"gs://b"⟩] ⟨[(1, "x".data)], 2⟩ [] 1 =
      (⟨[(1, "x".data)], 2⟩, [Nat.toDigits 10 1]) :=
  ⟨citation_numbering_invariant.2.1 [⟨"x"⟩, ⟨"gs://b"⟩] 2 (by decide)
      (by decide),
   citation_numbering_invariant.2.2 [⟨"x"⟩, ⟨"gs://b"⟩] ⟨[(1, "x".data)], 2⟩
      [] 1 1 "x".data ⟨by decide, by decide, by decide⟩ (by decide)
      (by decide) (by decide) (by decide)⟩

/-- C3: the worked example of the specification: two markers, a `gs://`
reference normalized to a public URL, deduplicated renumbering, and the
trailing references block in assignment order. -/
theorem example_two_citations :
    format_citations "Revenue grew [1]. See also [2,1]."
      [⟨"gs://bucket/a.pdf"⟩, ⟨"https://example.com/b"⟩] =
      "Revenue grew [1]. See also [2, 1].\n\n**References:**\n[1] https://storage.cloud.google.com/bucket/a.pdf\n[2] https://example.com/b\n" := by
  decide

/-- C4: a marker that parses as integers but whose indices are all out of
range (≤ 0 or > len(references)) is emitted with its original bracketed
text and contributes no table entry; concretely `"Bad ref [9]."` with one
reference is returned unchanged with no references block. -/
theorem all_invalid_marker_preserved :
    (∀ (urls : List SourceRef) (st : CState) (part : PyStr) (ns : List Int),
      ']' ∈ part →
      parseRefNumbers ((pySplit ']' part).headD []) = some ns →
      (∀ n ∈ ns, n ≤ 0 ∨ (urls.length : Int) < n) →
      processPart urls st part =
        (st, '[' :: (pySplit ']' part).headD [] ++
          ']' :: (pySplit ']' part).getD 1 [])) ∧
    format_citations "Bad ref [9]." [⟨"https://x"⟩] = "Bad ref [9]." :=
  ⟨fun urls st part ns hb hp hinv =>
      processPart_all_invalid urls st part ns hb hp hinv,
   by decide⟩

/-- C4 witness: the segment `"9]."` with one reference. -/
theorem all_invalid_marker_preserved_witness :
    processPart [⟨"https://x"⟩] ⟨[], 1⟩ "9].".data =
      (⟨[], 1⟩, '[' :: (pySplit ']' "9].".data).headD [] ++
        ']' :: (pySplit ']' "9].".data).getD 1 []) :=
  all_invalid_marker_preserved.1 [⟨"https://x"⟩] ⟨[], 1⟩ "9].".data [9]
    (by decide) (by decide) (by decide)

/-- C5: when the candidate fails integer parsing, the whole `[` plus the
segment (bracketed text and remainder) is copied verbatim and the state is
untouched; concretely `"See [abc]."` is returned unchanged. -/
theorem parse_failure_verbatim :
    (∀ (urls : List SourceRef) (st : CState) (part : PyStr),
      ']' ∈ part →
      parseRefNumbers ((pySplit ']' part).headD []) = none →
      processPart urls st part = (st, '[' :: part)) ∧
    format_citations "See [abc]." [] = "See [abc]." :=
  ⟨fun urls st part hb hp => processPart_parse_failure urls st part hb hp,
   by decide⟩

/-- C5 witness: the segment `"abc]. end"`. -/
theorem parse_failure_verbatim_witness :
    processPart [] ⟨[], 1⟩ "abc]. end".data =
      (⟨[], 1⟩, '[' :: "abc]. end".data) :=
  parse_failure_verbatim.1 [] ⟨[], 1⟩ "abc]. end".data (by decide) (by decide)

/-- C6: if the final citation table is empty, no references block is
appended and the output is exactly the leading segment followed by each
tail segment's pass-through transformation. -/
theorem empty_table_no_references (text : PyStr) (urls : List SourceRef)
    (h : (processParts urls ⟨[], 1⟩ (pySplit '[' text).tail).1.refs = []) :
    formatCitationsL text urls =
      (pySplit '[' text).headD [] ++
        (((pySplit '[' text).tail).map passthroughPart).flatten := by
  have hp := processParts_passthrough urls (pySplit '[' text).tail ⟨[], 1⟩
    rfl h
  simp only [formatCitationsL, hp]
  simp

/-- C6 witness: a text with no valid marker and an empty reference list. -/
theorem empty_table_no_references_witness :
    formatCitationsL "No citations here.".data [] =
      (pySplit '[' "No citations here.".data).headD [] ++
        (((pySplit '[' "No citations here.".data).tail).map
          passthroughPart).flatten :=
  empty_table_no_references "No citations here.".data [] (by decide)

/-- C7: `parse_external_link` is total; the empty string is returned
unchanged, a `gs://` prefix is replaced by
`https://storage.cloud.google.com/` with the rest untouched, and any
string not starting with `gs://` is returned unchanged. -/
theorem parse_external_link_spec :
    parse_external_link [] = [] ∧
    (∀ rest : PyStr, parse_external_link ("gs://".data ++ rest) =
      "https://storage.cloud.google.com/".data ++ rest) ∧
    (∀ url : PyStr, url.take 5 ≠ "gs://".data → parse_external_link url = url) := by
  refine ⟨rfl, fun rest => rfl, fun url h => ?_⟩
  by_cases hnil : url = []
  · simp [parse_external_link, hnil]
  · simp only [parse_external_link, if_neg hnil, if_neg h]

/-- C7 witness: a URL with no recognized prefix is returned unchanged. -/
theorem parse_external_link_spec_witness :
    parse_external_link "https://x".data = "https://x".data :=
  parse_external_link_spec.2.2 "https://x".data (by decide)

/-- C8: with a nonempty table the output is the formatted body, then a
blank line and the references heading, then one line `[n] url` per entry in
assignment order with the URL quoted with `safe=':/'`; the quoting keeps
`:`, `/` and unreserved characters verbatim and turns every other
character into nonempty `%XX` byte escapes. -/
theorem references_block_format (text : PyStr) (urls : List SourceRef)
    (h : (processParts urls ⟨[], 1⟩ (pySplit '[' text).tail).1.refs ≠ []) :
    (formatCitationsL text urls =
      (pySplit '[' text).headD [] ++
        (processParts urls ⟨[], 1⟩ (pySplit '[' text).tail).2 ++
        ("\n\n**References:**\n".data ++
          ((processParts urls ⟨[], 1⟩ (pySplit '[' text).tail).1.refs.map
            fun p => '[' :: Nat.toDigits 10 p.1 ++
              ']' :: ' ' :: pyQuote p.2 [':', '/'] ++ ['\n']).flatten)) ∧
    quoteChar [':', '/'] ':' = [':'] ∧
    quoteChar [':', '/'] '/' = ['/'] ∧
    (∀ c : Char, isAlwaysSafe c = true → quoteChar [':', '/'] c = [c]) ∧
    (∀ c : Char, isAlwaysSafe c = false → c ≠ ':' → c ≠ '/' →
      ∃ bs : List Nat, bs ≠ [] ∧ quoteChar [':', '/'] c =
        (bs.map fun b => ['%', hexDigit (b / 16), hexDigit (b % 16)]).flatten) := by
  refine ⟨?_, by decide, by decide, quoteChar_always_safe, quoteChar_escapes⟩
  simp only [formatCitationsL, referencesBlock, if_pos h]

/-- C8 witness: a one-marker text producing a one-entry references block,
and the space character as an escaped character. -/
theorem references_block_format_witness :
    (formatCitationsL "See [1]".data [⟨"u"⟩] =
      (pySplit '[' "See [1]".data).headD [] ++
        (processParts [⟨"u"⟩] ⟨[], 1⟩ (pySplit '[' "See [1]".data).tail).2 ++
        ("\n\n**References:**\n".data ++
          ((processParts [⟨"u"⟩] ⟨[], 1⟩
              (pySplit '[' "See [1]".data).tail).1.refs.map
            fun p => '[' :: Nat.toDigits 10 p.1 ++
              ']' :: ' ' :: pyQuote p.2 [':', '/'] ++ ['\n']).flatten)) ∧
    (∃ bs : List Nat, bs ≠ [] ∧ quoteChar [':', '/'] ' ' =
      (bs.map fun b => ['%', hexDigit (b / 16), hexDigit (b % 16)]).flatten) :=
  ⟨(references_block_format "See [1]".data [⟨"u"⟩] (by decide)).1,
   (references_block_format "See [1]".data [⟨"u"⟩] (by decide)).2.2.2.2 ' '
     (by decide) (by decide) (by decide)⟩

/-- C9: totality: the fallible model of `format_citations`, in which every
Python list indexing may fail and only `ValueError` is caught, returns
`some` of the total model's output on every text and reference list. -/
theorem format_citations_total (text : String) (urls : List SourceRef) :
    formatCitationsE text.data urls = some (format_citations text urls).data :=
  formatCitationsE_eq text.data urls

/-- C10: `"-1"` parses as the integer −1 (so `[-1]` is a syntactically
valid marker), the index −1 is out of range and skipped without touching
the state, and a marker containing only `-1` is preserved through the
all-invalid branch. -/
theorem negative_index_skipped :
    pyInt (pyStrip "-1".data) = some (-1) ∧
    parseRefNumbers "-1".data = some [-1] ∧
    (∀ (urls : List SourceRef) (st : CState) (nums : List PyStr),
      processRef urls st nums (-1) = (st, nums)) ∧
    format_citations "x [-1] y" [⟨"u"⟩] = "x [-1] y" := by
  refine ⟨by decide, by decide, fun urls st nums => ?_, by decide⟩
  exact processRef_invalid urls st nums (-1) (by rintro ⟨h1, h2⟩; omega)
